import Mathlib

/-!
# Verification of the autom8 orchestration core

Shallow embedding of the task store, branching planner, worktree
orchestrator, liveness tracker and lifecycle manager of `src/main.go`,
together with proofs of the behavioural claims about them.
-/

namespace Autom8

/-- The persisted task record (`type Task struct` in `main.go`).
`DependsOn = ""` encodes the absent optional parent reference, exactly as
the Go zero value does. -/
structure Task where
  ID : String
  Prompt : String
  VerificationCriteria : List String
  DependsOn : String
  CreatedAt : Nat
  Status : String
deriving DecidableEq, Repr

/-- `fmt.Sprintf("-%d", i+1)` — the suffix given to the `i`-th instance
(0-based loop index, 1-based printed index) in `runImplement`. -/
def suffixFor (i : Nat) : String := "-" ++ toString (i + 1)

/-- `instanceID := task.ID + suffix` in `implementTaskWithSuffix`. -/
def instanceIDOf (t : Task) (suffix : String) : String := t.ID ++ suffix

/-- `branchName := fmt.Sprintf("autom8/%s", instanceID)`. -/
def branchNameOf (t : Task) (suffix : String) : String :=
  "autom8/" ++ instanceIDOf t suffix

/-- The pending filter of `runImplement` (no target id given):
`task.Status == "pending"`. -/
def pendingTasksOf (tasks : List Task) : List Task :=
  tasks.filter (fun t => t.Status = "pending")

/-- The split into tasks without a parent reference (`task.DependsOn == ""`),
as in `runImplement`. -/
def independentTasksOf (pendingTasks : List Task) : List Task :=
  pendingTasks.filter (fun t => t.DependsOn = "")

/-- The split into tasks with a parent reference, as in `runImplement`. -/
def dependentTasksOf (pendingTasks : List Task) : List Task :=
  pendingTasks.filter (fun t => ¬ t.DependsOn = "")

/-- One planned unit of work: the arguments `runImplement` passes to
`implementTaskWithSuffix` for one checkout instance.  `baseBranchID = ""`
encodes "root at the caller's current HEAD". -/
structure PlanUnit where
  task : Task
  baseBranchID : String
  suffix : String
deriving DecidableEq, Repr

/-- The units spawned for the independent tasks: for each task, for each
`i < numInstances`, suffix `suffixFor i`, with empty
base branch (rooted at HEAD). -/
def independentPlan (independentTasks : List Task) (numInstances : Nat) :
    List PlanUnit :=
  independentTasks.flatMap (fun t =>
    (List.range numInstances).map (fun i => PlanUnit.mk t "" (suffixFor i)))

/-- `independentBranches` as built by `runImplement`: each independent task
id maps to the list of suffixes created for it. -/
def independentBranchesOf (independentTasks : List Task) (numInstances : Nat) :
    List (String × List String) :=
  independentTasks.map (fun t =>
    (t.ID, (List.range numInstances).map suffixFor))

/-- Go map lookup on the association list built above. -/
def lookupBranches (m : List (String × List String)) (key : String) :
    Option (List String) :=
  match m.find? (fun p => p.1 = key) with
  | some p => some p.2
  | none => none

/-- The units spawned for one dependent task: parent suffixes come from
`independentBranches[task.DependsOn]` when present, else the synthesized
default `-1…-N`; for each parent suffix and each child index the unit gets
suffix `parentSuffix-childIndex` and base branch id `DependsOn ++ parentSuffix`. -/
def dependentPlanFor (t : Task) (numInstances : Nat)
    (independentBranches : List (String × List String)) : List PlanUnit :=
  let depSuffixes :=
    match lookupBranches independentBranches t.DependsOn with
    | some l => l
    | none => (List.range numInstances).map suffixFor
  depSuffixes.flatMap (fun ds =>
    (List.range numInstances).map (fun i =>
      PlanUnit.mk t (t.DependsOn ++ ds) (ds ++ suffixFor i)))

/-- All units spawned for the dependent tasks. -/
def dependentPlan (dependentTasks : List Task) (numInstances : Nat)
    (independentBranches : List (String × List String)) : List PlanUnit :=
  dependentTasks.flatMap (fun t =>
    dependentPlanFor t numInstances independentBranches)

/-- The pid-table update `pids[worktreeName] = pid` of a Go map, modelled as
an association-list update: replace the existing entry or append a new one. -/
def setPid : List (String × Int) → String → Int → List (String × Int)
  | [], w, p => [(w, p)]
  | (k, v) :: rest, w, p =>
    if k = w then (w, p) :: rest else (k, v) :: setPid rest w p

/-- Go map read `pids[key]`. -/
def lookupPid (pids : List (String × Int)) (key : String) : Option Int :=
  match pids.find? (fun q => q.1 = key) with
  | some q => some q.2
  | none => none

/-- `loadPids`: a missing or malformed pids file (both modelled as `none`)
yields an empty map; a well-formed stored table is returned as-is. -/
def loadPids : Option (List (String × Int)) → List (String × Int)
  | some table => table
  | none => []

/-- `savePid(worktreeName, pid)`: read-modify-write of the stored table. -/
def savePid (stored : Option (List (String × Int))) (worktreeName : String)
    (pid : Int) : List (String × Int) :=
  setPid (loadPids stored) worktreeName pid

/-- The parts of the repository the orchestrator and lifecycle commands
mutate: existing worktree directory names, branch names, which base each
created checkout was rooted on (`none` = the caller's HEAD), the task list,
the pid table, the spawned agent processes, and the branches merged into
the caller's current branch. -/
structure WorldState where
  worktrees : List String
  branches : List String
  checkoutBases : List (String × Option String)
  tasks : List Task
  pids : List (String × Int)
  procs : List (String × Int)
  mergedBranches : List String
deriving DecidableEq, Repr

/-- Outcomes of the external commands `implementTaskWithSuffix` invokes:
whether `git worktree add` succeeds, whether `claude` starts, and which
process id the started agent gets. -/
structure ExecOracle where
  worktreeAddOk : String → Bool
  claudeStartOk : String → Bool
  claudePid : String → Int

/-- The result string variants `implementTaskWithSuffix` can return. -/
inductive UnitResult where
  | skip (instanceID : String)
  | errWorktree (instanceID : String)
  | errClaude (instanceID : String)
  | started (instanceID branchName : String) (base : Option String)
deriving DecidableEq, Repr

/-- `implementTaskWithSuffix`: derive the instance id and branch name; skip
without touching anything when the worktree path already exists; otherwise
create the checkout (rooted on `autom8/<baseBranchID>` when a base is given,
else on HEAD), start the agent, and record its pid via the read-modify-write
`savePid`. -/
def implementTaskWithSuffix (st : WorldState) (task : Task)
    (baseBranchID suffix : String) (o : ExecOracle) : UnitResult × WorldState :=
  let instanceID := task.ID ++ suffix
  let branchName := "autom8/" ++ instanceID
  if st.worktrees.contains instanceID then (.skip instanceID, st)
  else if o.worktreeAddOk instanceID then
    let base := if baseBranchID = "" then none else some ("autom8/" ++ baseBranchID)
    let st1 := { st with
      worktrees := instanceID :: st.worktrees
      branches := branchName :: st.branches
      checkoutBases := (instanceID, base) :: st.checkoutBases }
    if o.claudeStartOk instanceID then
      let pid := o.claudePid instanceID
      (.started instanceID branchName base,
        { st1 with
          pids := setPid st1.pids instanceID pid
          procs := (instanceID, pid) :: st1.procs })
    else (.errClaude instanceID, st1)
  else (.errWorktree instanceID, st)

/-- Index of the last `'-'` in a character list (`strings.LastIndex`),
`none` when absent. -/
def lastDashIdx : List Char → Option Nat
  | [] => none
  | c :: rest =>
    match lastDashIdx rest with
    | some i => some (i + 1)
    | none => if c = '-' then some 0 else none

/-- Task-id extraction in `runAccept` and `runStatus`: drop everything from
the last dash on, provided that dash is not the first character
(`if lastDash := strings.LastIndex(worktreeName, "-"); lastDash > 0`). -/
def extractTaskID (worktreeName : String) : String :=
  match lastDashIdx worktreeName.toList with
  | some i => if 0 < i then String.mk (worktreeName.toList.take i) else worktreeName
  | none => worktreeName

/-- The status-update loop at the end of `runAccept`: set the first task
whose id matches to `"completed"` and stop (`break`). -/
def markCompletedFirst : List Task → String → List Task
  | [], _ => []
  | t :: rest, taskID =>
    if t.ID = taskID then { t with Status := "completed" } :: rest
    else t :: markCompletedFirst rest taskID

/-- Outcomes of the external git commands `runAccept` invokes.  `branchOf`
is the (already trimmed) output of `git branch --show-current` in the
worktree, `none` when the command itself fails. -/
structure AcceptOracle where
  branchOf : String → Option String
  hasChanges : String → Bool
  commitOk : String → Bool
  mergeOk : String → Bool
  removeOk : String → Bool
  deleteBranchOk : String → Bool

/-- The ways `runAccept` can end.  `accepted` carries the merged branch and
whether branch deletion only warned (soft failure). -/
inductive AcceptResult where
  | errNotFound
  | errBranch
  | errCommit
  | errMerge
  | errRemove
  | accepted (branchName : String) (deleteWarned : Bool)
deriving DecidableEq, Repr

def AcceptResult.isAccepted : AcceptResult → Bool
  | .accepted _ _ => true
  | _ => false

/-- `runAccept`: fail before any mutation when the worktree does not exist;
resolve the branch; auto-commit uncommitted changes; merge the branch into
the caller's current branch; remove the worktree; delete the branch (soft
failure tolerated); finally mark the first task whose id equals the
worktree name minus its last dash segment as completed and persist. -/
def runAccept (st : WorldState) (worktreeName : String) (o : AcceptOracle) :
    AcceptResult × WorldState :=
  if st.worktrees.contains worktreeName then
    match o.branchOf worktreeName with
    | none => (.errBranch, st)
    | some branchName =>
      if branchName = "" then (.errBranch, st)
      else if o.hasChanges worktreeName ∧ ¬ o.commitOk worktreeName then
        (.errCommit, st)
      else if ¬ o.mergeOk branchName then (.errMerge, st)
      else
        let st1 := { st with mergedBranches := branchName :: st.mergedBranches }
        if ¬ o.removeOk worktreeName then (.errRemove, st1)
        else
          let st2 := { st1 with
            worktrees := st1.worktrees.filter (fun w => ¬ w = worktreeName) }
          let st3 :=
            if o.deleteBranchOk branchName then
              { st2 with branches := st2.branches.filter (fun b => ¬ b = branchName) }
            else st2
          let st4 := { st3 with
            tasks := markCompletedFirst st3.tasks (extractTaskID worktreeName) }
          (.accepted branchName (¬ o.deleteBranchOk branchName), st4)
  else (.errNotFound, st)

/-- The ways `runDelete` can end. -/
inductive DeleteResult where
  | errNotFound
  | errHasDependents (dependents : List String)
  | deleted
deriving DecidableEq, Repr

/-- The index-search loop of `runDelete`: first index whose task id
matches, `none` when absent. -/
def findTaskIdx : List Task → String → Option Nat
  | [], _ => none
  | t :: rest, taskID =>
    if t.ID = taskID then some 0
    else (findTaskIdx rest taskID).map (fun i => i + 1)

/-- `runDelete`: find the task by id (first match); collect the ids of every
task whose `DependsOn` names it; refuse with that list when nonempty;
otherwise remove exactly the found element and persist.  The second
component is the persisted task list after the command. -/
def runDelete (tasks : List Task) (taskID : String) :
    DeleteResult × List Task :=
  match findTaskIdx tasks taskID with
  | none => (.errNotFound, tasks)
  | some taskIndex =>
    let dependents := (tasks.filter (fun t => t.DependsOn = taskID)).map Task.ID
    if dependents.isEmpty then
      (.deleted, tasks.take taskIndex ++ tasks.drop (taskIndex + 1))
    else (.errHasDependents dependents, tasks)

/-- The ways `runFeature` can end. -/
inductive FeatureResult where
  | errNoPrompt
  | errDependencyNotFound (dependsOn : String)
  | created (task : Task)
deriving DecidableEq, Repr

/-- An ASCII whitespace character, as `strings.TrimSpace` treats them. -/
def isSpaceChar (c : Char) : Bool :=
  c = ' ' ∨ c = '\t' ∨ c = '\n' ∨ c = '\r'

/-- `strings.TrimSpace`: drop leading and trailing whitespace. -/
def trimSpace (s : String) : String :=
  String.mk (((s.toList.dropWhile isSpaceChar).reverse.dropWhile isSpaceChar).reverse)

/-- `runFeature` (non-interactive path): reject a blank prompt; reject a
`dependsOn` that names no existing task; otherwise append one new pending
task whose id is derived from the current time, and persist.  The second
component is the persisted task list after the command. -/
def runFeature (tasks : List Task) (prompt : String) (criteria : List String)
    (dependsOn : String) (nowNanos : Nat) : FeatureResult × List Task :=
  if trimSpace prompt = "" then (.errNoPrompt, tasks)
  else if dependsOn ≠ "" ∧ ¬ tasks.any (fun t => t.ID = dependsOn) then
    (.errDependencyNotFound dependsOn, tasks)
  else
    let task : Task :=
      { ID := "task-" ++ toString nowNanos
        Prompt := prompt
        VerificationCriteria := criteria
        DependsOn := dependsOn
        CreatedAt := nowNanos
        Status := "pending" }
    (.created task, tasks ++ [task])

/-- Observable persistence and side effects of one `implement` run, in
program order. -/
inductive Event where
  | persistTasks (tasks : List Task)
  | createCheckout (instanceID branchName : String) (base : Option String)
  | spawnAgent (instanceID : String)
  | persistPids (instanceID : String) (pid : Int)
deriving DecidableEq, Repr

def Event.isPersistTasks : Event → Bool
  | .persistTasks _ => true
  | _ => false

/-- The in-progress flip in `runImplement`: a task is flipped exactly when
a selected pending task carries its id. -/
def markInProgress (tasks pendingTasks : List Task) : List Task :=
  tasks.map (fun t =>
    if pendingTasks.any (fun pt => pt.ID = t.ID) then
      { t with Status := "in-progress" }
    else t)

/-- The task-selection filter of `runImplement`: with no target id, all
pending tasks; with a target id, the first task carrying it (error when
absent or already completed), regardless of its pending status. -/
def selectTasks (tasks : List Task) (targetTaskID : String) :
    Except String (List Task) :=
  if targetTaskID = "" then .ok (pendingTasksOf tasks)
  else
    match tasks.find? (fun t => t.ID = targetTaskID) with
    | none => .error "task not found"
    | some t =>
      if t.Status = "completed" then .error "task is already completed"
      else .ok [t]

/-- The full fan-out plan over the selected tasks: independent units first,
then the dependent units built against the `independentBranches` map. -/
def implementPlanOf (selected : List Task) (numInstances : Nat) : List PlanUnit :=
  let ind := independentTasksOf selected
  let dep := dependentTasksOf selected
  independentPlan ind numInstances ++
    dependentPlan dep numInstances (independentBranchesOf ind numInstances)

/-- The events one planned unit emits.  `statExists` is the outcome of the
unit's own `os.Stat` idempotency probe. -/
def unitEvents (u : PlanUnit) (statExists : String → Bool) (o : ExecOracle) :
    List Event :=
  let instanceID := u.task.ID ++ u.suffix
  if statExists instanceID then []
  else if o.worktreeAddOk instanceID then
    let base :=
      if u.baseBranchID = "" then none else some ("autom8/" ++ u.baseBranchID)
    Event.createCheckout instanceID ("autom8/" ++ instanceID) base ::
      (if o.claudeStartOk instanceID then
        [Event.spawnAgent instanceID,
         Event.persistPids instanceID (o.claudePid instanceID)]
      else [])
  else []

/-- The event trace of one `runImplement` call: nothing when selection
errors or selects nothing; otherwise the single task-list persist (all
selected tasks flipped to in-progress) happens strictly before every unit
of the fan-out. -/
def runImplementTrace (tasks : List Task) (targetTaskID : String)
    (numInstances : Nat) (statExists : String → Bool) (o : ExecOracle) :
    List Event :=
  let n := if numInstances < 1 then 1 else numInstances
  match selectTasks tasks targetTaskID with
  | .error _ => []
  | .ok selected =>
    if selected.isEmpty then []
    else
      Event.persistTasks (markInProgress tasks selected) ::
        (implementPlanOf selected n).flatMap (fun u => unitEvents u statExists o)

/-- Is `pat` a prefix of `text`? (boolean, character lists). -/
def isPrefixAt : List Char → List Char → Bool
  | [], _ => true
  | _ :: _, [] => false
  | a :: as, b :: bs => a = b && isPrefixAt as bs

/-- First index at which `pat` occurs inside `text`, `none` when it never
does. -/
def findSubIdx (pat : List Char) : List Char → Option Nat
  | [] => if pat.isEmpty then some 0 else none
  | c :: rest =>
    if isPrefixAt pat (c :: rest) then some 0
    else (findSubIdx pat rest).map (fun i => i + 1)

/-- Modelled from the spec: the machine-parseable verdict keyword of the
convergence engine (`WINNER:`), matched case-insensitively.  The convergence
engine itself is part of this repository but absent from `src/` (only the
`converger.md` template and AGENTS.md refer to it). -/
def verdictKeyword : List Char := "WINNER:".toList

/-- Modelled from the spec: strip surrounding markdown emphasis characters
from a verdict token. -/
def stripEmphasisList (l : List Char) : List Char :=
  l.filter (fun c => ¬ (c = '*' ∨ c = '_'))

/-- Modelled from the spec: drop surrounding whitespace from a verdict
token. -/
def trimChars (l : List Char) : List Char :=
  (((l.dropWhile (fun c => c = ' ')).reverse.dropWhile (fun c => c = ' '))).reverse

/-- Modelled from the spec (§4.4 step 2): scan one line for the verdict
keyword, case-insensitively; the trailing token, trimmed and with markdown
emphasis stripped, must exactly equal one of the candidate instance names. -/
def lineVerdict (candidates : List String) (line : String) : Option String :=
  match findSubIdx verdictKeyword (line.toList.map Char.toUpper) with
  | none => none
  | some i =>
    let token :=
      String.mk (stripEmphasisList (trimChars (line.toList.drop (i + verdictKeyword.length))))
    if token ∈ candidates then some token else none

/-- Split a character list at newline characters (the line structure the
verdict scan walks over). -/
def splitLinesAux : List Char → List Char → List (List Char)
  | [], acc => [acc.reverse]
  | c :: rest, acc =>
    if c = '\n' then acc.reverse :: splitLinesAux rest []
    else splitLinesAux rest (c :: acc)

/-- The lines of a response text. -/
def respLines (resp : String) : List String :=
  (splitLinesAux resp.toList []).map String.mk

/-- Modelled from the spec (§4.4 step 2): take the first line whose verdict
token is a valid candidate. -/
def scanVerdictLines (resp : String) (candidates : List String) : Option String :=
  (respLines resp).findSome? (fun l => lineVerdict candidates l)

/-- Modelled from the spec (§4.4 step 3): the proximity keywords of the
fallback scan. -/
def proximityWords : List (List Char) :=
  ["winner".toList, "best".toList, "recommend".toList]

/-- All indices at which `pat` occurs inside `text`. -/
def occurrenceIdxs (pat text : List Char) : List Nat :=
  (List.range text.length).filter (fun i => isPrefixAt pat (text.drop i))

/-- Modelled from the spec (§4.4 step 3): does the ±50-character window
around an occurrence contain one of the proximity keywords? -/
def windowHit (text : List Char) (i len : Nat) : Bool :=
  let lo := i - 50
  let hi := i + len + 50
  let window := (text.drop lo).take (hi - lo)
  proximityWords.any (fun w => (findSubIdx w window).isSome)

/-- Modelled from the spec (§4.4 step 3): scan the lowercased response for
any candidate name whose occurrence passes the proximity test; the first
such candidate wins. -/
def proximityFallback (resp : String) (candidates : List String) : Option String :=
  let low := resp.toList.map Char.toLower
  candidates.findSome? (fun cand =>
    let c := cand.toList.map Char.toLower
    if (occurrenceIdxs c low).any (fun i => windowHit low i c.length) then
      some cand
    else none)

/-- Modelled from the spec: the parse outcome — either a concrete winner or
no winner with the raw response preserved for the caller. -/
inductive ConvergeVerdict where
  | winner (name : String)
  | noWinner (raw : String)
deriving DecidableEq, Repr

/-- Modelled from the spec (§4.4 step 1): the judge response, possibly
wrapped in a structured envelope with a named result field. -/
inductive JudgeResponse where
  | plain (text : String)
  | envelope (result : String)
deriving DecidableEq, Repr

/-- Modelled from the spec (§4.4 step 1): unwrap the envelope first. -/
def unwrapResponse : JudgeResponse → String
  | .plain t => t
  | .envelope r => r

/-- Modelled from the spec (§4.4 steps 2–4): verdict-line scan, then
proximity fallback, else no winner with the raw text preserved. -/
def parseWinner (resp : String) (candidates : List String) : ConvergeVerdict :=
  match scanVerdictLines resp candidates with
  | some w => .winner w
  | none =>
    match proximityFallback resp candidates with
    | some w => .winner w
    | none => .noWinner resp

/-- Modelled from the spec (§4.4): the full parse, envelope unwrapped
first. -/
def parseConvergeVerdict (r : JudgeResponse) (candidates : List String) :
    ConvergeVerdict :=
  parseWinner (unwrapResponse r) candidates

/-! ## Helper lemmas -/

theorem mk_toList (s : String) : String.mk s.toList = s := by
  cases s
  rfl

theorem lookupPid_setPid_self (l : List (String × Int)) (w : String) (p : Int) :
    lookupPid (setPid l w p) w = some p := by
  induction l with
  | nil => simp [setPid, lookupPid]
  | cons hd tl ih =>
    obtain ⟨k, v⟩ := hd
    by_cases hk : k = w
    · simp [setPid, hk, lookupPid]
    · simpa [setPid, hk, lookupPid, List.find?_cons] using ih

theorem lookupPid_setPid_other (l : List (String × Int)) (w w' : String)
    (p : Int) (h : ¬ w' = w) : lookupPid (setPid l w p) w' = lookupPid l w' := by
  have hw : ¬ (w = w') := fun h' => h h'.symm
  induction l with
  | nil => simp [setPid, lookupPid, List.find?_cons, hw]
  | cons hd tl ih =>
    obtain ⟨k, v⟩ := hd
    by_cases hk : k = w
    · subst hk
      simp [setPid, lookupPid, List.find?_cons, hw]
    · by_cases hkw : k = w'
      · simp [setPid, hk, lookupPid, List.find?_cons, hkw, h]
      · simpa [setPid, hk, lookupPid, List.find?_cons, hkw] using ih

theorem lastDashIdx_eq_none (l : List Char) (h : ∀ c ∈ l, ¬ c = '-') :
    lastDashIdx l = none := by
  induction l with
  | nil => rfl
  | cons c rest ih =>
    have hc : ¬ c = '-' := h c (by simp)
    have : lastDashIdx rest = none := ih (fun x hx => h x (by simp [hx]))
    simp [lastDashIdx, this, hc]

theorem lastDashIdx_cons (c : Char) (rest : List Char) :
    lastDashIdx (c :: rest) =
      match lastDashIdx rest with
      | some i => some (i + 1)
      | none => if c = '-' then some 0 else none := rfl

theorem lastDashIdx_append (l1 l2 : List Char) :
    lastDashIdx (l1 ++ l2) =
      match lastDashIdx l2 with
      | some i => some (l1.length + i)
      | none => lastDashIdx l1 := by
  induction l1 with
  | nil =>
    cases h : lastDashIdx l2 <;> simp [h, lastDashIdx]
  | cons c rest ih =>
    rw [List.cons_append, lastDashIdx_cons, ih]
    cases h : lastDashIdx l2 with
    | none => exact (lastDashIdx_cons c rest).symm
    | some i =>
      show some (rest.length + i + 1) = some ((c :: rest).length + i)
      simp only [List.length_cons]
      exact congrArg some (by omega)

theorem extractTaskID_one_level (tid d : String) (h1 : ¬ tid = "")
    (h2 : ∀ c ∈ d.toList, ¬ c = '-') :
    extractTaskID (tid ++ "-" ++ d) = tid := by
  have hdata : (tid ++ "-" ++ d).toList = tid.toList ++ ('-' :: d.toList) := by
    show (tid ++ "-" ++ d).data = tid.data ++ ('-' :: d.data)
    rw [String.data_append, String.data_append, List.append_assoc]
    rfl
  have hd2 : lastDashIdx ('-' :: d.toList) = some 0 := by
    rw [lastDashIdx_cons, lastDashIdx_eq_none d.toList h2]
    simp
  have hlen : 0 < tid.toList.length := by
    cases h : tid.toList with
    | nil => exact absurd (String.ext_iff.mpr h) h1
    | cons c cs => simp [h]
  have hmain : lastDashIdx (tid.toList ++ ('-' :: d.toList)) = some tid.toList.length := by
    rw [lastDashIdx_append, hd2]
    simp
  simp only [extractTaskID, hdata, hmain]
  rw [if_pos hlen, List.take_left]
  exact mk_toList tid

theorem length_independentPlan (ts : List Task) (n : Nat) :
    (independentPlan ts n).length = ts.length * n := by
  induction ts with
  | nil => simp [independentPlan]
  | cons t rest ih =>
    simp only [independentPlan, List.flatMap_cons, List.length_append,
      List.length_map, List.length_range, List.length_cons] at ih ⊢
    rw [ih]
    ring

theorem mem_independentPlan (ts : List Task) (n : Nat) (u : PlanUnit) :
    u ∈ independentPlan ts n ↔
      ∃ t ∈ ts, ∃ i, i < n ∧ u = PlanUnit.mk t "" (suffixFor i) := by
  simp only [independentPlan, List.mem_flatMap, List.mem_map, List.mem_range]
  constructor
  · rintro ⟨t, ht, i, hi, rfl⟩
    exact ⟨t, ht, i, hi, rfl⟩
  · rintro ⟨t, ht, i, hi, rfl⟩
    exact ⟨t, ht, i, hi, rfl⟩

theorem implement_creates (st : WorldState) (t : Task) (base suffix : String)
    (o : ExecOracle)
    (hfresh : st.worktrees.contains (t.ID ++ suffix) = false)
    (hgit : o.worktreeAddOk (t.ID ++ suffix) = true)
    (hclaude : o.claudeStartOk (t.ID ++ suffix) = true) :
    implementTaskWithSuffix st t base suffix o =
      (UnitResult.started (t.ID ++ suffix) ("autom8/" ++ (t.ID ++ suffix))
          (if base = "" then none else some ("autom8/" ++ base)),
        { st with
          worktrees := (t.ID ++ suffix) :: st.worktrees
          branches := ("autom8/" ++ (t.ID ++ suffix)) :: st.branches
          checkoutBases :=
            ((t.ID ++ suffix),
              if base = "" then none else some ("autom8/" ++ base)) :: st.checkoutBases
          pids := setPid st.pids (t.ID ++ suffix) (o.claudePid (t.ID ++ suffix))
          procs := ((t.ID ++ suffix), o.claudePid (t.ID ++ suffix)) :: st.procs }) := by
  have hmem : (t.ID ++ suffix) ∉ st.worktrees := by simpa using hfresh
  simp [implementTaskWithSuffix, hfresh, hmem, hgit, hclaude]

theorem lookupBranches_independentBranchesOf (its : List Task) (n : Nat)
    (key : String) :
    lookupBranches (independentBranchesOf its n) key = none ∨
    lookupBranches (independentBranchesOf its n) key =
      some ((List.range n).map suffixFor) := by
  induction its with
  | nil => left; rfl
  | cons t rest ih =>
    by_cases h : t.ID = key
    · right
      simp [lookupBranches, independentBranchesOf, List.find?_cons, h]
    · rcases ih with h' | h' <;>
        [left; right] <;>
        simpa [lookupBranches, independentBranchesOf, List.find?_cons, h] using h'

theorem dependentPlanFor_eq (t : Task) (n : Nat) (its : List Task) :
    dependentPlanFor t n (independentBranchesOf its n) =
      ((List.range n).map suffixFor).flatMap (fun ds =>
        (List.range n).map (fun i =>
          PlanUnit.mk t (t.DependsOn ++ ds) (ds ++ suffixFor i))) := by
  rcases lookupBranches_independentBranchesOf its n t.DependsOn with h | h <;>
    simp [dependentPlanFor, h]

theorem suffixFor_ne_empty (i : Nat) : ¬ suffixFor i = "" := by
  intro h
  have : (suffixFor i).data = [] := String.ext_iff.mp h
  rw [suffixFor] at this
  rw [String.data_append] at this
  simp at this

theorem append_suffixFor_ne_empty (s : String) (i : Nat) :
    ¬ s ++ suffixFor i = "" := by
  intro h
  have hdata : (s ++ suffixFor i).data = [] := String.ext_iff.mp h
  rw [String.data_append] at hdata
  rcases List.append_eq_nil.mp hdata with ⟨-, h2⟩
  exact suffixFor_ne_empty i (String.ext_iff.mpr h2)

theorem findTaskIdx_some_of_mem (tasks : List Task) (taskID : String)
    (h : ∃ t ∈ tasks, t.ID = taskID) : ∃ i, findTaskIdx tasks taskID = some i := by
  induction tasks with
  | nil => simp at h
  | cons t rest ih =>
    by_cases ht : t.ID = taskID
    · exact ⟨0, by simp [findTaskIdx, ht]⟩
    · rcases h with ⟨u, hu, hid⟩
      rcases List.mem_cons.mp hu with rfl | hmem
      · exact absurd hid ht
      · rcases ih ⟨u, hmem, hid⟩ with ⟨i, hi⟩
        exact ⟨i + 1, by simp [findTaskIdx, ht, hi]⟩

theorem findTaskIdx_append_first (pre : List Task) (t : Task) (post : List Task)
    (taskID : String) (ht : t.ID = taskID) (hpre : ∀ u ∈ pre, ¬ u.ID = taskID) :
    findTaskIdx (pre ++ t :: post) taskID = some pre.length := by
  induction pre with
  | nil => simp [findTaskIdx, ht]
  | cons u rest ih =>
    have hu : ¬ u.ID = taskID := hpre u (by simp)
    have := ih (fun v hv => hpre v (by simp [hv]))
    simp [findTaskIdx, hu, this]

theorem unitEvents_no_persistTasks (u : PlanUnit) (statExists : String → Bool)
    (o : ExecOracle) (e : Event) (he : e ∈ unitEvents u statExists o) :
    e.isPersistTasks = false := by
  rw [unitEvents] at he
  split at he
  · simp at he
  · split at he
    · rcases List.mem_cons.mp he with rfl | he2
      · rfl
      · split at he2
        · simp at he2
          rcases he2 with rfl | rfl <;> rfl
        · simp at he2
    · simp at he

theorem isPrefixAt_append_self (pat rest : List Char) :
    isPrefixAt pat (pat ++ rest) = true := by
  induction pat with
  | nil => rfl
  | cons c cs ih => simp [isPrefixAt, ih]

theorem findSubIdx_zero (pat text : List Char) (hne : ¬ pat = [])
    (hpre : isPrefixAt pat text = true) : findSubIdx pat text = some 0 := by
  cases text with
  | nil =>
    cases pat with
    | nil => exact absurd rfl hne
    | cons c cs => simp [isPrefixAt] at hpre
  | cons c rest => simp [findSubIdx, hpre]

theorem lineVerdict_mem (candidates : List String) (line : String) (X : String)
    (h : lineVerdict candidates line = some X) : X ∈ candidates := by
  simp only [lineVerdict] at h
  split at h
  · exact absurd h (by simp)
  · split at h
    · obtain rfl := Option.some.inj h
      assumption
    · exact absurd h (by simp)

theorem scanVerdictLines_mem (resp : String) (candidates : List String)
    (X : String) (h : scanVerdictLines resp candidates = some X) :
    X ∈ candidates := by
  rw [scanVerdictLines] at h
  rcases List.findSome?_eq_some_iff.mp h with ⟨l1, a, l2, -, ha, -⟩
  exact lineVerdict_mem candidates a X ha

theorem append_left_ne_empty (s t : String) (h : ¬ s = "") : ¬ s ++ t = "" := by
  intro hc
  have hd := String.ext_iff.mp hc
  rw [String.data_append] at hd
  rcases List.append_eq_nil.mp hd with ⟨h1, -⟩
  exact h (String.ext_iff.mpr h1)

/-! ## Example inputs used by witnesses -/

def exTask100 : Task :=
  { ID := "task-100", Prompt := "add login", VerificationCriteria := ["has email"],
    DependsOn := "", CreatedAt := 100, Status := "pending" }

def exTask200 : Task :=
  { ID := "task-200", Prompt := "add logout", VerificationCriteria := [],
    DependsOn := "task-100", CreatedAt := 200, Status := "pending" }

def exTasks : List Task := [exTask100, exTask200]

def exExecOracle : ExecOracle :=
  { worktreeAddOk := fun _ => true, claudeStartOk := fun _ => true,
    claudePid := fun _ => 42 }

def exAcceptOracle : AcceptOracle :=
  { branchOf := fun w => some ("autom8/" ++ w), hasChanges := fun _ => false,
    commitOk := fun _ => true, mergeOk := fun _ => true,
    removeOk := fun _ => true, deleteBranchOk := fun _ => true }

def exState : WorldState :=
  { worktrees := ["task-100-1"], branches := ["autom8/task-100-1"],
    checkoutBases := [], tasks := [exTask100], pids := [], procs := [],
    mergedBranches := [] }

/-! ## Claim theorems -/

/-- C4: for every planned (task, suffix) unit whose derived worktree path
already exists, the unit returns the skip result and performs no mutation —
the world state is returned unchanged, so no checkout, branch, agent
process or pid entry is added — and it never returns an error; hence
re-running implement against already-created instance paths is a no-op for
those instances. -/
theorem C4_existing_path_skips (st : WorldState) (t : Task)
    (baseBranchID suffix : String) (o : ExecOracle)
    (h : st.worktrees.contains (t.ID ++ suffix) = true) :
    implementTaskWithSuffix st t baseBranchID suffix o =
      (UnitResult.skip (t.ID ++ suffix), st) := by
  have hmem : (t.ID ++ suffix) ∈ st.worktrees := by simpa using h
  simp [implementTaskWithSuffix, hmem]

theorem C4_existing_path_skips_witness :
    exState.worktrees.contains (exTask100.ID ++ "-1") = true ∧
    implementTaskWithSuffix exState exTask100 "" "-1" exExecOracle =
      (UnitResult.skip (exTask100.ID ++ "-1"), exState) :=
  ⟨by decide, C4_existing_path_skips exState exTask100 "" "-1" exExecOracle (by decide)⟩

/-- C7: invoking accept with an instance name whose worktree directory does
not exist fails with the not-found error before any mutation: the returned
state — task list, pid table, branches, worktrees, merged branches — is
exactly the input state. -/
theorem C7_accept_unknown_worktree (st : WorldState) (worktreeName : String)
    (o : AcceptOracle) (h : st.worktrees.contains worktreeName = false) :
    runAccept st worktreeName o = (AcceptResult.errNotFound, st) := by
  have hmem : worktreeName ∉ st.worktrees := by simpa using h
  simp [runAccept, hmem]

theorem C7_accept_unknown_worktree_witness :
    exState.worktrees.contains "task-999-1" = false ∧
    runAccept exState "task-999-1" exAcceptOracle =
      (AcceptResult.errNotFound, exState) :=
  ⟨by decide, C7_accept_unknown_worktree exState "task-999-1" exAcceptOracle (by decide)⟩

/-- C10: when the persisted pid table exists and is well-formed, recording
a pid via savePid sets the entry of the given worktree name and leaves the
entry of every other instance name unchanged — a read-modify-write, not an
overwrite with a singleton map. -/
theorem C10_savePid_read_modify_write (table : List (String × Int))
    (worktreeName : String) (pid : Int) :
    lookupPid (savePid (some table) worktreeName pid) worktreeName = some pid ∧
    ∀ other, ¬ other = worktreeName →
      lookupPid (savePid (some table) worktreeName pid) other =
        lookupPid table other := by
  refine ⟨lookupPid_setPid_self table worktreeName pid, ?_⟩
  intro other hne
  exact lookupPid_setPid_other table worktreeName other pid hne

theorem C10_savePid_read_modify_write_witness :
    ¬ "task-1-1" = "task-2-1" ∧
    (lookupPid (savePid (some [("task-1-1", 5)]) "task-2-1" 9) "task-2-1" =
        some 9 ∧
      lookupPid (savePid (some [("task-1-1", 5)]) "task-2-1" 9) "task-1-1" =
        lookupPid [("task-1-1", 5)] "task-1-1") :=
  ⟨by decide,
    (C10_savePid_read_modify_write [("task-1-1", 5)] "task-2-1" 9).1,
    (C10_savePid_read_modify_write [("task-1-1", 5)] "task-2-1" 9).2
      "task-1-1" (by decide)⟩

/-- C6: deleting a task some other task depends on fails with an error
enumerating exactly the ids of all dependents and leaves the persisted
list unchanged; deleting a present task with no dependents removes exactly
that task (the first id match), leaves all other tasks unchanged in order,
and succeeds. -/
theorem C6_delete_dependents_guard (tasks : List Task) (taskID : String) :
    ((∃ t ∈ tasks, t.ID = taskID) → (∃ t ∈ tasks, t.DependsOn = taskID) →
      runDelete tasks taskID =
        (DeleteResult.errHasDependents
          ((tasks.filter (fun t => t.DependsOn = taskID)).map Task.ID), tasks) ∧
      ∀ depID, depID ∈ (tasks.filter (fun t => t.DependsOn = taskID)).map Task.ID ↔
        ∃ t ∈ tasks, t.DependsOn = taskID ∧ t.ID = depID) ∧
    ((¬ ∃ t ∈ tasks, t.DependsOn = taskID) →
      ∀ pre t post, tasks = pre ++ t :: post → t.ID = taskID →
        (∀ u ∈ pre, ¬ u.ID = taskID) →
        runDelete tasks taskID = (DeleteResult.deleted, pre ++ post)) := by
  constructor
  · intro hmem hdep
    obtain ⟨i, hi⟩ := findTaskIdx_some_of_mem tasks taskID hmem
    have hne : (tasks.filter (fun t => t.DependsOn = taskID)).map Task.ID ≠ [] := by
      rcases hdep with ⟨t0, ht0, hd0⟩
      exact List.ne_nil_of_mem
        (List.mem_map_of_mem Task.ID (List.mem_filter.mpr ⟨ht0, by simp [hd0]⟩))
    have hemp :
        ((tasks.filter (fun t => t.DependsOn = taskID)).map Task.ID).isEmpty = false :=
      List.isEmpty_eq_false.mpr hne
    refine ⟨by simp only [runDelete, hi, hemp]; rfl, ?_⟩
    intro depID
    simp only [List.mem_map, List.mem_filter, decide_eq_true_eq]
    constructor
    · rintro ⟨t, ⟨ht, hd⟩, hid⟩
      exact ⟨t, ht, hd, hid⟩
    · rintro ⟨t, ht, hd, hid⟩
      exact ⟨t, ⟨ht, hd⟩, hid⟩
  · intro hnodep pre t post htasks ht hpre
    subst htasks
    have hidx : findTaskIdx (pre ++ t :: post) taskID = some pre.length :=
      findTaskIdx_append_first pre t post taskID ht hpre
    have hfil :
        (pre ++ t :: post).filter (fun u => u.DependsOn = taskID) = [] := by
      rw [List.filter_eq_nil_iff]
      intro a ha hcontra
      exact hnodep ⟨a, ha, by simpa using hcontra⟩
    simp only [runDelete, hidx, hfil, List.map_nil, List.isEmpty_nil, if_true]
    rw [List.take_left, List.drop_append 1]
    rfl

theorem C6_delete_dependents_guard_witness :
    ((∃ t ∈ exTasks, t.ID = "task-100") ∧
      (∃ t ∈ exTasks, t.DependsOn = "task-100")) ∧
    runDelete exTasks "task-100" =
      (DeleteResult.errHasDependents ["task-200"], exTasks) ∧
    runDelete exTasks "task-200" = (DeleteResult.deleted, [exTask100]) := by
  refine ⟨⟨by decide, by decide⟩, ?_, ?_⟩
  · have h :=
      ((C6_delete_dependents_guard exTasks "task-100").1 (by decide) (by decide)).1
    exact h.trans (by decide)
  · have h :=
      (C6_delete_dependents_guard exTasks "task-200").2 (by decide)
        [exTask100] exTask200 [] rfl (by decide) (by decide)
    exact h.trans (by decide)

/-- C9: task creation preserves the store invariant: feature either fails
without modifying the store, or appends exactly one new task whose
dependsOn, if set, references a task already present at creation time; and
as long as the generated id is fresh, the new task cannot depend on
itself. -/
theorem C9_feature_dependency_check (tasks : List Task) (prompt : String)
    (criteria : List String) (dependsOn : String) (now : Nat) :
    ((∀ t, ¬ (runFeature tasks prompt criteria dependsOn now).1 =
        FeatureResult.created t) →
      (runFeature tasks prompt criteria dependsOn now).2 = tasks) ∧
    (∀ newTask,
      (runFeature tasks prompt criteria dependsOn now).1 =
        FeatureResult.created newTask →
      (runFeature tasks prompt criteria dependsOn now).2 = tasks ++ [newTask] ∧
      (¬ newTask.DependsOn = "" → ∃ t0 ∈ tasks, t0.ID = newTask.DependsOn) ∧
      ((∀ t0 ∈ tasks, ¬ t0.ID = newTask.ID) →
        ¬ newTask.DependsOn = newTask.ID)) := by
  by_cases h1 : trimSpace prompt = ""
  · refine ⟨fun _ => by simp [runFeature, h1], fun nt hnt => ?_⟩
    simp [runFeature, h1] at hnt
  · by_cases h2 : dependsOn ≠ "" ∧ ¬ tasks.any (fun t => t.ID = dependsOn)
    · refine ⟨fun _ => by simp [runFeature, h1, h2], fun nt hnt => ?_⟩
      simp [runFeature, h1, h2] at hnt
    · have hcr : runFeature tasks prompt criteria dependsOn now =
          (FeatureResult.created
             { ID := "task-" ++ toString now, Prompt := prompt,
               VerificationCriteria := criteria, DependsOn := dependsOn,
               CreatedAt := now, Status := "pending" },
           tasks ++
             [{ ID := "task-" ++ toString now, Prompt := prompt,
                VerificationCriteria := criteria, DependsOn := dependsOn,
                CreatedAt := now, Status := "pending" }]) := by
        unfold runFeature
        rw [if_neg h1, if_neg h2]
      refine ⟨fun hno => absurd (congrArg Prod.fst hcr) (hno _), fun nt hnt => ?_⟩
      rw [hcr] at hnt
      obtain rfl := FeatureResult.created.inj hnt
      refine ⟨congrArg Prod.snd hcr, ?_, ?_⟩
      · intro hdep
        have hdep' : ¬ dependsOn = "" := hdep
        show ∃ t0 ∈ tasks, t0.ID = dependsOn
        rcases not_and_or.mp h2 with hcase | hcase
        · exact absurd (not_not.mp hcase) hdep'
        · rcases List.any_eq_true.mp (not_not.mp hcase) with ⟨t0, ht0, hid⟩
          exact ⟨t0, ht0, by simpa using hid⟩
      · intro hfresh hcontra
        have hcontra' : dependsOn = "task-" ++ toString now := hcontra
        by_cases hdo : dependsOn = ""
        · rw [hdo] at hcontra'
          exact append_left_ne_empty "task-" (toString now) (by decide) hcontra'.symm
        · rcases not_and_or.mp h2 with hcase | hcase
          · exact absurd (not_not.mp hcase) hdo
          · rcases List.any_eq_true.mp (not_not.mp hcase) with ⟨t0, ht0, hid⟩
            have hid' : t0.ID = dependsOn := by simpa using hid
            exact hfresh t0 ht0 (hid'.trans hcontra')

theorem C9_feature_dependency_check_witness :
    (runFeature [exTask100] "add search" [] "task-100" 300).1 =
      FeatureResult.created
        { ID := "task-" ++ toString 300, Prompt := "add search",
          VerificationCriteria := [], DependsOn := "task-100",
          CreatedAt := 300, Status := "pending" } ∧
    ((runFeature [exTask100] "add search" [] "task-100" 300).2 =
        [exTask100] ++
          [{ ID := "task-" ++ toString 300, Prompt := "add search",
             VerificationCriteria := [], DependsOn := "task-100",
             CreatedAt := 300, Status := "pending" }] ∧
      (¬ ("task-100" : String) = "" →
        ∃ t0 ∈ [exTask100], t0.ID = "task-100") ∧
      ((∀ t0 ∈ [exTask100], ¬ t0.ID = ("task-" ++ toString 300 : String)) →
        ¬ ("task-100" : String) = ("task-" ++ toString 300 : String))) :=
  ⟨by decide,
    (C9_feature_dependency_check [exTask100] "add search" [] "task-100" 300).2
      _ (by decide)⟩

def exParentTask : Task :=
  { ID := "task-5", Prompt := "parent work", VerificationCriteria := [],
    DependsOn := "", CreatedAt := 5, Status := "completed" }

def exChildTask : Task :=
  { ID := "task-7", Prompt := "child work", VerificationCriteria := [],
    DependsOn := "task-5", CreatedAt := 7, Status := "in-progress" }

def exDepState : WorldState :=
  { worktrees := ["task-7-1-2"], branches := ["autom8/task-7-1-2"],
    checkoutBases := [], tasks := [exParentTask, exChildTask], pids := [],
    procs := [], mergedBranches := [] }

/-- C2 counterexample: accepting the dependent-task instance `task-7-1-2`
succeeds end to end, yet the owning task `task-7` — the task whose ID the
instance name extends with its suffix `-1-2` — is left untouched: the id
derived by stripping only the last dash segment is `task-7-1`, which
matches no task, so no task is marked completed. -/
theorem C2_counterexample_multi_level :
    (runAccept exDepState "task-7-1-2" exAcceptOracle).1 =
      AcceptResult.accepted "autom8/task-7-1-2" false ∧
    extractTaskID "task-7-1-2" = "task-7-1" ∧
    (runAccept exDepState "task-7-1-2" exAcceptOracle).2.tasks =
      [exParentTask, exChildTask] ∧
    ¬ ∃ t ∈ (runAccept exDepState "task-7-1-2" exAcceptOracle).2.tasks,
        t.ID = "task-7" ∧ t.Status = "completed" := by
  refine ⟨by decide, by decide, by decide, by decide⟩

/-- C2 (amended): a successful accept updates the persisted task list by
marking completed the first task whose id equals the worktree name with
its final dash segment removed; for a one-level instance name
`tid ++ "-" ++ d` (no dash inside `d`) that id is exactly the owning
task's, while for a multi-level suffix the derived id retains the parent
component and the owning task is not the one addressed. -/
theorem C2_accept_marks_stripped_id (st : WorldState) (worktreeName : String)
    (o : AcceptOracle) :
    ((runAccept st worktreeName o).1.isAccepted = true →
      (runAccept st worktreeName o).2.tasks =
        markCompletedFirst st.tasks (extractTaskID worktreeName)) ∧
    (∀ tid d, worktreeName = tid ++ "-" ++ d → ¬ tid = "" →
      (∀ c ∈ d.toList, ¬ c = '-') → extractTaskID worktreeName = tid) := by
  constructor
  · intro hacc
    by_cases hmem : worktreeName ∈ st.worktrees
    case neg =>
      have h : runAccept st worktreeName o = (.errNotFound, st) := by
        simp [runAccept, hmem]
      rw [h] at hacc
      simp [AcceptResult.isAccepted] at hacc
    case pos =>
      cases hbr : o.branchOf worktreeName with
      | none =>
        have h : runAccept st worktreeName o = (.errBranch, st) := by
          simp [runAccept, hmem, hbr]
        rw [h] at hacc
        simp [AcceptResult.isAccepted] at hacc
      | some branchName =>
        by_cases hb0 : branchName = ""
        · have h : runAccept st worktreeName o = (.errBranch, st) := by
            simp [runAccept, hmem, hbr, hb0]
          rw [h] at hacc
          simp [AcceptResult.isAccepted] at hacc
        · by_cases hcommit :
            o.hasChanges worktreeName = true ∧ o.commitOk worktreeName = false
          · have h : runAccept st worktreeName o = (.errCommit, st) := by
              simp [runAccept, hmem, hbr, hb0, hcommit]
            rw [h] at hacc
            simp [AcceptResult.isAccepted] at hacc
          · by_cases hmerge : o.mergeOk branchName = true
            · by_cases hremove : o.removeOk worktreeName = true
              · by_cases hdel : o.deleteBranchOk branchName = true
                · simp [runAccept, hmem, hbr, hb0, hcommit, hmerge, hremove, hdel]
                · simp [runAccept, hmem, hbr, hb0, hcommit, hmerge, hremove, hdel]
              · have h : (runAccept st worktreeName o).1 = .errRemove := by
                  simp [runAccept, hmem, hbr, hb0, hcommit, hmerge, hremove]
                rw [h] at hacc
                simp [AcceptResult.isAccepted] at hacc
            · have h : runAccept st worktreeName o =
                  (.errMerge, st) := by
                simp [runAccept, hmem, hbr, hb0, hcommit, hmerge]
              rw [h] at hacc
              simp [AcceptResult.isAccepted] at hacc
  · intro tid d hw h1 h2
    rw [hw]
    exact extractTaskID_one_level tid d h1 h2

theorem C2_accept_marks_stripped_id_witness :
    (runAccept exState "task-100-1" exAcceptOracle).1.isAccepted = true ∧
    ("task-100-1" : String) = "task-100" ++ "-" ++ "1" ∧
    ((runAccept exState "task-100-1" exAcceptOracle).2.tasks =
        markCompletedFirst exState.tasks (extractTaskID "task-100-1") ∧
      extractTaskID "task-100-1" = "task-100") :=
  ⟨by decide, by decide,
    (C2_accept_marks_stripped_id exState "task-100-1" exAcceptOracle).1 (by decide),
    (C2_accept_marks_stripped_id exState "task-100-1" exAcceptOracle).2
      "task-100" "1" (by decide) (by decide) (by decide)⟩

def exEmptyState : WorldState :=
  { worktrees := [], branches := [], checkoutBases := [], tasks := exTasks,
    pids := [], procs := [], mergedBranches := [] }

/-- C3: for M pending independent tasks and branching factor N the plan
holds exactly M·N units; each unit carries a suffix `-1` … `-N`, an empty
base branch, and — executed on a fresh path with the external commands
succeeding — creates exactly one checkout whose name is taskID+suffix and
whose branch is `autom8/<taskID><suffix>` (a pure function of the pair),
rooted at the caller's HEAD (base `none`), never on another branch. -/
theorem C3_independent_fanout (tasks : List Task) (n : Nat) :
    (independentPlan (independentTasksOf (pendingTasksOf tasks)) n).length =
      (independentTasksOf (pendingTasksOf tasks)).length * n ∧
    (∀ u ∈ independentPlan (independentTasksOf (pendingTasksOf tasks)) n,
      u.task ∈ independentTasksOf (pendingTasksOf tasks) ∧
      u.baseBranchID = "" ∧ ∃ i, i < n ∧ u.suffix = suffixFor i) ∧
    (∀ t ∈ independentTasksOf (pendingTasksOf tasks), ∀ i, i < n →
      PlanUnit.mk t "" (suffixFor i) ∈
        independentPlan (independentTasksOf (pendingTasksOf tasks)) n) ∧
    (∀ u ∈ independentPlan (independentTasksOf (pendingTasksOf tasks)) n,
      ∀ (st : WorldState) (o : ExecOracle),
        st.worktrees.contains (instanceIDOf u.task u.suffix) = false →
        o.worktreeAddOk (instanceIDOf u.task u.suffix) = true →
        o.claudeStartOk (instanceIDOf u.task u.suffix) = true →
        implementTaskWithSuffix st u.task u.baseBranchID u.suffix o =
          (UnitResult.started (instanceIDOf u.task u.suffix)
              (branchNameOf u.task u.suffix) none,
            { st with
              worktrees := instanceIDOf u.task u.suffix :: st.worktrees
              branches := branchNameOf u.task u.suffix :: st.branches
              checkoutBases :=
                (instanceIDOf u.task u.suffix, none) :: st.checkoutBases
              pids := setPid st.pids (instanceIDOf u.task u.suffix)
                        (o.claudePid (instanceIDOf u.task u.suffix))
              procs := (instanceIDOf u.task u.suffix,
                        o.claudePid (instanceIDOf u.task u.suffix)) ::
                          st.procs })) := by
  refine ⟨length_independentPlan _ n, ?_, ?_, ?_⟩
  · intro u hu
    rcases (mem_independentPlan _ n u).mp hu with ⟨t, ht, i, hi, rfl⟩
    exact ⟨ht, rfl, i, hi, rfl⟩
  · intro t ht i hi
    exact (mem_independentPlan _ n _).mpr ⟨t, ht, i, hi, rfl⟩
  · intro u hu st o hfresh hgit hclaude
    rcases (mem_independentPlan _ n u).mp hu with ⟨t, ht, i, hi, rfl⟩
    simpa [instanceIDOf, branchNameOf] using
      implement_creates st t "" (suffixFor i) o hfresh hgit hclaude

theorem C3_independent_fanout_witness :
    exTask100 ∈ independentTasksOf (pendingTasksOf exTasks) ∧ 1 < 2 ∧
    PlanUnit.mk exTask100 "" (suffixFor 1) ∈
      independentPlan (independentTasksOf (pendingTasksOf exTasks)) 2 ∧
    (independentPlan (independentTasksOf (pendingTasksOf exTasks)) 2).length =
      (independentTasksOf (pendingTasksOf exTasks)).length * 2 :=
  ⟨by decide, by decide,
    (C3_independent_fanout exTasks 2).2.2.1 exTask100 (by decide) 1 (by decide),
    (C3_independent_fanout exTasks 2).1⟩

theorem flatMap_const_length {α β : Type} (l : List α) (f : α → List β)
    (n : Nat) (h : ∀ a ∈ l, (f a).length = n) :
    (l.flatMap f).length = l.length * n := by
  induction l with
  | nil => simp
  | cons a rest ih =>
    simp only [List.flatMap_cons, List.length_append, List.length_cons]
    rw [h a (by simp), ih (fun b hb => h b (by simp [hb]))]
    ring

theorem length_dependentPlanFor (t : Task) (n : Nat) (its : List Task) :
    (dependentPlanFor t n (independentBranchesOf its n)).length = n * n := by
  rw [dependentPlanFor_eq]
  rw [flatMap_const_length _ _ n (fun ds _ => by simp)]
  simp

theorem mem_dependentPlanFor (t : Task) (n : Nat) (its : List Task)
    (u : PlanUnit) :
    u ∈ dependentPlanFor t n (independentBranchesOf its n) ↔
      ∃ p, p < n ∧ ∃ c, c < n ∧
        u = PlanUnit.mk t (t.DependsOn ++ suffixFor p)
              (suffixFor p ++ suffixFor c) := by
  rw [dependentPlanFor_eq]
  simp only [List.mem_flatMap, List.mem_map, List.mem_range]
  constructor
  · rintro ⟨ds, ⟨p, hp, rfl⟩, c, hc, rfl⟩
    exact ⟨p, hp, c, hc, rfl⟩
  · rintro ⟨p, hp, c, hc, rfl⟩
    exact ⟨suffixFor p, ⟨p, hp, rfl⟩, c, hc, rfl⟩

/-- C1: a dependent task planned with branching factor N yields exactly N²
units, one per (parent suffix, child index) pair, whose suffix is
`parentSuffix-childIndex` with child indices 1…N; executed on a fresh path
with the external commands succeeding, each unit creates a checkout rooted
on `autom8/<parentTaskID><parentSuffix>` — the branch of its own parent
instance, never an arbitrary one. -/
theorem C1_dependent_exponential_branching (t : Task) (n : Nat)
    (its : List Task) (_hdep : ¬ t.DependsOn = "") :
    (dependentPlanFor t n (independentBranchesOf its n)).length = n * n ∧
    (∀ u ∈ dependentPlanFor t n (independentBranchesOf its n),
      ∃ p, p < n ∧ ∃ c, c < n ∧
        u = PlanUnit.mk t (t.DependsOn ++ suffixFor p)
              (suffixFor p ++ suffixFor c)) ∧
    (∀ p, p < n → ∀ c, c < n →
      PlanUnit.mk t (t.DependsOn ++ suffixFor p) (suffixFor p ++ suffixFor c) ∈
        dependentPlanFor t n (independentBranchesOf its n)) ∧
    (∀ u ∈ dependentPlanFor t n (independentBranchesOf its n),
      ∀ (st : WorldState) (o : ExecOracle),
        st.worktrees.contains (instanceIDOf u.task u.suffix) = false →
        o.worktreeAddOk (instanceIDOf u.task u.suffix) = true →
        o.claudeStartOk (instanceIDOf u.task u.suffix) = true →
        implementTaskWithSuffix st u.task u.baseBranchID u.suffix o =
          (UnitResult.started (instanceIDOf u.task u.suffix)
              (branchNameOf u.task u.suffix)
              (some ("autom8/" ++ u.baseBranchID)),
            { st with
              worktrees := instanceIDOf u.task u.suffix :: st.worktrees
              branches := branchNameOf u.task u.suffix :: st.branches
              checkoutBases :=
                (instanceIDOf u.task u.suffix,
                  some ("autom8/" ++ u.baseBranchID)) :: st.checkoutBases
              pids := setPid st.pids (instanceIDOf u.task u.suffix)
                        (o.claudePid (instanceIDOf u.task u.suffix))
              procs := (instanceIDOf u.task u.suffix,
                        o.claudePid (instanceIDOf u.task u.suffix)) ::
                          st.procs })) := by
  refine ⟨length_dependentPlanFor t n its, ?_, ?_, ?_⟩
  · intro u hu
    exact (mem_dependentPlanFor t n its u).mp hu
  · intro p hp c hc
    exact (mem_dependentPlanFor t n its _).mpr ⟨p, hp, c, hc, rfl⟩
  · intro u hu st o hfresh hgit hclaude
    rcases (mem_dependentPlanFor t n its u).mp hu with ⟨p, hp, c, hc, rfl⟩
    have hbase : ¬ (t.DependsOn ++ suffixFor p) = "" :=
      append_suffixFor_ne_empty t.DependsOn p
    simpa [instanceIDOf, branchNameOf, if_neg hbase] using
      implement_creates st t (t.DependsOn ++ suffixFor p)
        (suffixFor p ++ suffixFor c) o hfresh hgit hclaude

theorem C1_dependent_exponential_branching_witness :
    ¬ exTask200.DependsOn = "" ∧
    ((dependentPlanFor exTask200 2 (independentBranchesOf [exTask100] 2)).length =
        2 * 2 ∧
      PlanUnit.mk exTask200 (exTask200.DependsOn ++ suffixFor 0)
          (suffixFor 0 ++ suffixFor 1) ∈
        dependentPlanFor exTask200 2 (independentBranchesOf [exTask100] 2)) :=
  ⟨by decide,
    (C1_dependent_exponential_branching exTask200 2 [exTask100] (by decide)).1,
    (C1_dependent_exponential_branching exTask200 2 [exTask100] (by decide)).2.2.1
      0 (by decide) 1 (by decide)⟩

/-- C8: whenever implement reaches fan-out (some task is selected), the
single persisted status update — flipping exactly the selected pending
tasks to in-progress — is the head of the trace, strictly before every
checkout creation and agent spawn; no unit of the fan-out ever emits a
second task-list persist, so only a later accept (or convergence) changes
a task's status again. -/
theorem C8_persist_precedes_fanout (tasks : List Task) (targetTaskID : String)
    (n : Nat) (statExists : String → Bool) (o : ExecOracle)
    (selected : List Task)
    (hsel : selectTasks tasks targetTaskID = .ok selected)
    (hne : ¬ selected = []) :
    runImplementTrace tasks targetTaskID n statExists o =
      Event.persistTasks (markInProgress tasks selected) ::
        (implementPlanOf selected (if n < 1 then 1 else n)).flatMap
          (fun u => unitEvents u statExists o) ∧
    (∀ e ∈ (implementPlanOf selected (if n < 1 then 1 else n)).flatMap
        (fun u => unitEvents u statExists o), e.isPersistTasks = false) ∧
    ∀ i (hi : i < tasks.length),
      (markInProgress tasks selected)[i]? =
        some (if selected.any (fun pt => pt.ID = tasks[i].ID)
          then { tasks[i] with Status := "in-progress" } else tasks[i]) := by
  refine ⟨?_, ?_, ?_⟩
  · have hemp : selected.isEmpty = false := List.isEmpty_eq_false.mpr hne
    simp [runImplementTrace, hsel, hemp]
  · intro e he
    rcases List.mem_flatMap.mp he with ⟨u, -, he2⟩
    exact unitEvents_no_persistTasks u statExists o e he2
  · intro i hi
    simp [markInProgress, List.getElem?_map, List.getElem?_eq_getElem hi]

theorem C8_persist_precedes_fanout_witness :
    (selectTasks exTasks "" = Except.ok (pendingTasksOf exTasks) ∧
      ¬ pendingTasksOf exTasks = []) ∧
    runImplementTrace exTasks "" 1 (fun _ => false) exExecOracle =
      Event.persistTasks (markInProgress exTasks (pendingTasksOf exTasks)) ::
        (implementPlanOf (pendingTasksOf exTasks) (if 1 < 1 then 1 else 1)).flatMap
          (fun u => unitEvents u (fun _ => false) exExecOracle) :=
  ⟨⟨rfl, by decide⟩,
    (C8_persist_precedes_fanout exTasks "" 1 (fun _ => false) exExecOracle
      (pendingTasksOf exTasks) rfl (by decide)).1⟩

/-- C5: whenever the verdict-line scan finds `WINNER: X` with X a valid
candidate (case-insensitive keyword, markdown emphasis stripped), the
parser returns that winner, which is always one of the candidates; a
literal `WINNER: X` line with a clean candidate name X always scans to X;
and when both the line scan and the proximity-window fallback fail, the
parser returns no winner with the raw response text preserved for the
caller — it never guesses silently. -/
theorem C5_convergence_verdict_parsing (resp : String)
    (candidates : List String) :
    (∀ X, scanVerdictLines resp candidates = some X →
      X ∈ candidates ∧ parseWinner resp candidates = ConvergeVerdict.winner X) ∧
    (scanVerdictLines resp candidates = none →
      proximityFallback resp candidates = none →
      parseWinner resp candidates = ConvergeVerdict.noWinner resp) ∧
    (∀ X, X ∈ candidates → trimChars X.toList = X.toList →
      stripEmphasisList X.toList = X.toList →
      lineVerdict candidates ("WINNER: " ++ X) = some X) := by
  refine ⟨?_, ?_, ?_⟩
  · intro X h
    exact ⟨scanVerdictLines_mem resp candidates X h, by simp [parseWinner, h]⟩
  · intro h1 h2
    simp [parseWinner, h1, h2]
  · intro X hX htrim hstrip
    have hlist : ("WINNER: " ++ X).toList = verdictKeyword ++ (' ' :: X.toList) := by
      show ("WINNER: " ++ X).data = verdictKeyword ++ (' ' :: X.data)
      rw [String.data_append]
      rfl
    have hupper : ("WINNER: " ++ X).toList.map Char.toUpper =
        verdictKeyword ++ (' ' :: X.toList.map Char.toUpper) := by
      rw [hlist, List.map_append, List.map_cons]
      rw [show List.map Char.toUpper verdictKeyword = verdictKeyword from by decide]
      rw [show Char.toUpper ' ' = ' ' from by decide]
    have hfind : findSubIdx verdictKeyword
        (("WINNER: " ++ X).toList.map Char.toUpper) = some 0 := by
      rw [hupper]
      exact findSubIdx_zero _ _ (by decide) (isPrefixAt_append_self verdictKeyword _)
    have hdrop : ("WINNER: " ++ X).toList.drop (0 + verdictKeyword.length) =
        ' ' :: X.toList := by
      rw [hlist, Nat.zero_add, List.drop_left]
    have htrim2 : trimChars (' ' :: X.toList) = X.toList := by
      have hstep : trimChars (' ' :: X.toList) = trimChars X.toList := by
        simp [trimChars, List.dropWhile_cons]
      rw [hstep, htrim]
    simp only [lineVerdict, hfind, hdrop, htrim2, hstrip, mk_toList]
    rw [if_pos hX]

theorem C5_convergence_verdict_parsing_witness :
    scanVerdictLines "after review the cleanest solution is **WINNER: A-1**"
        ["A-1", "A-2"] = some "A-1" ∧
    ("A-1" ∈ ["A-1", "A-2"] ∧
      parseWinner "after review the cleanest solution is **WINNER: A-1**"
          ["A-1", "A-2"] = ConvergeVerdict.winner "A-1") :=
  ⟨by decide,
    (C5_convergence_verdict_parsing
        "after review the cleanest solution is **WINNER: A-1**"
        ["A-1", "A-2"]).1 "A-1" (by decide)⟩

end Autom8
